import Mathlib

/-!
Verification of the task-graph mutation engine of `YansonK/task-graph`
(`src/backend/llm_model/graph_operations.py`) against its specification.

The Python operations mutate a `graph_data` dict in place and return either a
change-descriptor dict or `None`.  The embedding below passes the state
explicitly: every operation takes the parsed payload and the current
`GraphData` and returns the pair (optional change descriptor, new `GraphData`).

Payload encoding: a Python tool payload is a dict that may lack a key or map
it to `None` (JSON null).  A field whose absence and nullness both matter is
embedded as `Option (Option String)` (`none` = key absent, `some none` = key
present with null, `some (some s)` = key present with string `s`); a field
where the claims only need presence is embedded as `Option String`
(`none` = key absent).  `parse_tool_result` failure (unparseable / error
string payload) is embedded as the whole payload being `none`.
-/

namespace TaskGraph

/-- Python task-node dict as stored in `graph_data["nodes"]`.
`description` is `Option String` because the code can store Python `None`
under the key (`none` = stored `None`).  `status` is `Option String` with
`none` modelling a client-supplied node without the `"status"` key; nodes
appended by `create_task_node` always carry `some "notStarted"`. -/
structure TaskNode where
  id : String
  name : String
  description : Option String
  status : Option String
deriving DecidableEq

/-- Directed link dict `{"source": ..., "target": ...}`: source is parent of
target. -/
structure Link where
  source : String
  target : String
deriving DecidableEq

/-- The `graph_data` dict: `{"nodes": [...], "links": [...]}`. -/
structure GraphData where
  nodes : List TaskNode
  links : List Link
deriving DecidableEq

/-- Python truthiness of a string-or-None value: `None` and `""` are falsy. -/
def truthyStr : Option String → Bool
  | none => false
  | some s => s != ""

/-- `GraphOperations.parent_exists`. -/
def parent_exists (parent_id : String) (graph_data : GraphData) : Bool :=
  graph_data.nodes.any (fun n => n.id == parent_id)

/-- Parsed payload for `create_task_node`.  `validate_node_data` requires the
keys `id`, `name`, `description`; `parent_id` is read with `.get`. -/
structure CreateReq where
  id : Option String
  name : Option String
  description : Option (Option String)
  parent_id : Option (Option String)
deriving DecidableEq

/-- Change descriptor `{"action": ..., "name": ..., "id": ...}` returned by
`create_task_node` and `edit_task_node`. -/
structure OpResult where
  action : String
  name : String
  id : String
deriving DecidableEq

/-- `GraphOperations.create_task_node`.  The argument is the already parsed
payload; `none` models `parse_tool_result` returning `None`.  Note that the
code reads `node.get("description", "")` whose default never fires (the key
is required by validation), so a present-but-null description is stored
as-is. -/
def create_task_node (node? : Option CreateReq) (graph_data : GraphData) :
    Option OpResult × GraphData :=
  match node? with
  | none => (none, graph_data)
  | some node =>
    match node.id, node.name, node.description with
    | some nid, some nname, some ndesc =>
      -- parent_id = node.get("parent_id"); truthy but unresolvable is dropped
      let pid0 : Option String := node.parent_id.join
      let pid : Option String :=
        if truthyStr pid0 then
          if parent_exists (pid0.getD "") graph_data then pid0 else none
        else pid0
      let links' : List Link :=
        if truthyStr pid then graph_data.links ++ [⟨pid.getD "", nid⟩]
        else graph_data.links
      let nodes' : List TaskNode :=
        graph_data.nodes ++ [⟨nid, nname, ndesc, some "notStarted"⟩]
      (some ⟨"create", nname, nid⟩, ⟨nodes', links'⟩)
    | _, _, _ => (none, graph_data)

/-- Parsed payload for `edit_task_node`: only `id` is required; `name`,
`description` and `parent_id` each distinguish absent / null / string. -/
structure EditReq where
  id : Option String
  name : Option (Option String)
  description : Option (Option String)
  parent_id : Option (Option String)
deriving DecidableEq

/-- In-place mutation of the first list element satisfying `p` (the Python
`for ... break` lookup followed by field assignment on the found dict). -/
def updateFirst (p : TaskNode → Bool) (f : TaskNode → TaskNode) :
    List TaskNode → List TaskNode
  | [] => []
  | n :: ns => if p n then f n :: ns else n :: updateFirst p f ns

/-- The name-field update of `edit_task_node`:
`if "name" in edit_info and edit_info["name"]:` (Python truthy test, so a
null or empty new name keeps the old one). -/
def editName (e : EditReq) (old : String) : String :=
  match e.name with
  | some (some s) => if s != "" then s else old
  | _ => old

/-- The description-field update of `edit_task_node`:
`if "description" in edit_info:` overwrite, but a null value re-reads
`node_to_edit.get("description", "")`, i.e. keeps the stored value. -/
def editDesc (e : EditReq) (old : Option String) : Option String :=
  match e.description with
  | none => old
  | some (some s) => some s
  | some none => old

/-- The in-place field updates of `edit_task_node` on the node list: the
first node whose id matches gets the name and description updates. -/
def editNodes (e : EditReq) (eid : String) (ns : List TaskNode) :
    List TaskNode :=
  updateFirst (fun n => n.id == eid)
    (fun n => { n with name := editName e n.name,
                       description := editDesc e n.description }) ns

/-- `GraphOperations.edit_task_node`. -/
def edit_task_node (edit? : Option EditReq) (graph_data : GraphData) :
    Option OpResult × GraphData :=
  match edit? with
  | none => (none, graph_data)
  | some e =>
    match e.id with
    | none => (none, graph_data)
    | some eid =>
      match graph_data.nodes.find? (fun n => n.id == eid) with
      | none => (none, graph_data)
      | some n0 =>
        let nodes' : List TaskNode := editNodes e eid graph_data.nodes
        let graph' : GraphData :=
          match e.parent_id with
          | none => ⟨nodes', graph_data.links⟩
          | some pv =>
            -- remove any existing links where this node is the target
            let kept := graph_data.links.filter (fun l => l.target != eid)
            if truthyStr pv then
              if parent_exists (pv.getD "") ⟨nodes', kept⟩ then
                ⟨nodes', kept ++ [⟨pv.getD "", eid⟩]⟩
              else ⟨nodes', kept⟩
            else ⟨nodes', kept⟩
        (some ⟨"edit", editName e n0.name, eid⟩, graph')

/-- Parsed payload for `update_task_status`: keys `id` and `status` required;
`status` distinguishes null (`some none`) from a string. -/
structure StatusReq where
  id : Option String
  status : Option (Option String)
deriving DecidableEq

/-- Change descriptor returned by `update_task_status`. -/
structure StatusResult where
  action : String
  name : String
  id : String
  old_status : String
  new_status : String
deriving DecidableEq

/-- The valid status values of `update_task_status`. -/
def valid_statuses : List String := ["notStarted", "inProgress", "completed"]

/-- `GraphOperations.update_task_status`. -/
def update_task_status (status? : Option StatusReq) (graph_data : GraphData) :
    Option StatusResult × GraphData :=
  match status? with
  | none => (none, graph_data)
  | some u =>
    match u.id, u.status with
    | some uid, some sv =>
      match sv with
      | none => (none, graph_data)   -- null status is not a valid status
      | some new_status =>
        if valid_statuses.contains new_status then
          match graph_data.nodes.find? (fun n => n.id == uid) with
          | none => (none, graph_data)
          | some n0 =>
            let old_status := n0.status.getD "notStarted"
            let nodes' : List TaskNode :=
              updateFirst (fun n => n.id == uid)
                (fun n => { n with status := some new_status })
                graph_data.nodes
            (some ⟨"update_status", n0.name, uid, old_status, new_status⟩,
             ⟨nodes', graph_data.links⟩)
        else (none, graph_data)
    | _, _ => (none, graph_data)

/-- Parsed payload for `delete_task_node`: only `id` is required. -/
structure DeleteReq where
  id : Option String
deriving DecidableEq

/-- Change descriptor returned by `delete_task_node`. -/
structure DeleteResult where
  action : String
  name : String
  id : String
  deleted_nodes : List String
  reconnected_children : Nat
  cascade_deleted : Nat
deriving DecidableEq

/-- Direct children of `nid`: targets of links whose source is `nid`, in link
order. -/
def childrenOf (graph_data : GraphData) (nid : String) : List String :=
  (graph_data.links.filter (fun l => l.source == nid)).map (fun l => l.target)

/-- Source of the first link whose target is `nid` (the parent lookup loop of
`delete_task_node`). -/
def firstParent (graph_data : GraphData) (nid : String) : Option String :=
  (graph_data.links.find? (fun l => l.target == nid)).map (fun l => l.source)

/-- Bounded reachability along links: `reachN g fuel a b` holds when a
nonempty path of at most `fuel` links leads from `a` to `b`. -/
def reachN (graph_data : GraphData) : Nat → String → String → Bool
  | 0, _, _ => false
  | fuel + 1, a, b =>
    (childrenOf graph_data a).any
      (fun c => c == b || reachN graph_data fuel c b)

/-- The link structure contains a directed cycle. -/
def cyclicLinks (graph_data : GraphData) : Bool :=
  graph_data.links.any (fun l => l.source == l.target ||
    reachN graph_data graph_data.links.length l.target l.source)

/-- The body of `find_all_descendants`: depth-first collection of `nid` and
its transitive descendants with a shared visited list.  The Python function
needs no fuel (the visited set bounds the recursion); here structural
recursion is on an explicit fuel that `find_all_descendants` instantiates
large enough to never run out (`fad_closed` and `find_all_descendants_iff`
below prove the instantiated fuel suffices).  Returns the
collected preorder list and the final visited list. -/
def fadAux (graph_data : GraphData) :
    Nat → String → List String → List String × List String
  | 0, _, visited => ([], visited)
  | fuel + 1, nid, visited =>
    if visited.contains nid then ([], visited)
    else
      (childrenOf graph_data nid).foldl
        (fun acc c =>
          let r := fadAux graph_data fuel c acc.2
          (acc.1 ++ r.1, r.2))
        ([nid], nid :: visited)

/-- The `for child_id in direct_children: descendants.extend(...)` loop of
`find_all_descendants`, as a standalone recursion (equal to the fold inside
`fadAux`, see `fadAux_succ`). -/
def fadList (graph_data : GraphData) (fuel : Nat) :
    List String → List String → List String × List String
  | [], visited => ([], visited)
  | c :: cs, visited =>
    let r1 := fadAux graph_data fuel c visited
    let r2 := fadList graph_data fuel cs r1.2
    (r1.1 ++ r2.1, r2.2)

/-- `find_all_descendants(node_id)` as called by `delete_task_node`: the
visited set starts empty; the fuel bounds the number of fresh visits, which
never exceeds one more than the number of links. -/
def find_all_descendants (graph_data : GraphData) (nid : String) : List String :=
  (fadAux graph_data (graph_data.links.length + 2) nid []).1

/-- `GraphOperations.delete_task_node`. -/
def delete_task_node (delete? : Option DeleteReq) (graph_data : GraphData) :
    Option DeleteResult × GraphData :=
  match delete? with
  | none => (none, graph_data)
  | some d =>
    match d.id with
    | none => (none, graph_data)
    | some node_id =>
      match graph_data.nodes.find? (fun n => n.id == node_id) with
      | none => (none, graph_data)
      | some node_to_delete =>
        let parent_id : Option String := firstParent graph_data node_id
        let children_ids : List String := childrenOf graph_data node_id
        if truthyStr parent_id then
          -- case 1: node has a (truthy) parent - reconnect children to parent
          let links1 := graph_data.links.filter
            (fun l => l.source != node_id && l.target != node_id)
          let links2 := links1 ++
            children_ids.map (fun c => ⟨parent_id.getD "", c⟩)
          let nodes' := graph_data.nodes.filter (fun n => n.id != node_id)
          (some ⟨"delete", node_to_delete.name, node_id, [node_id],
                 children_ids.length, 0⟩,
           ⟨nodes', links2⟩)
        else
          -- case 2: no (truthy) parent - cascade delete all descendants
          let nodes_to_delete := find_all_descendants graph_data node_id
          let links' := graph_data.links.filter
            (fun l => !nodes_to_delete.contains l.source &&
                      !nodes_to_delete.contains l.target)
          let nodes' := graph_data.nodes.filter
            (fun n => !nodes_to_delete.contains n.id)
          (some ⟨"delete", node_to_delete.name, node_id, nodes_to_delete,
                 0, nodes_to_delete.length⟩,
           ⟨nodes', links'⟩)

/-! ## Graph invariants -/

/-- Number of links in `links` whose target is `t` (incoming links of `t`). -/
def countIncoming (links : List Link) (t : String) : Nat :=
  (links.filter (fun l => l.target == t)).length

/-- The single-parent property: every id is the target of at most one link. -/
def TargetsAtMostOnce (graph_data : GraphData) : Prop :=
  ∀ t, countIncoming graph_data.links t ≤ 1

/-- Executable form of `TargetsAtMostOnce` (used to check concrete graphs). -/
def targetsAtMostOnceB (graph_data : GraphData) : Bool :=
  graph_data.links.all (fun l => decide (countIncoming graph_data.links l.target ≤ 1))

/-- Every link's target references an existing node id. -/
def LinkTargetsExist (graph_data : GraphData) : Prop :=
  ∀ l ∈ graph_data.links, parent_exists l.target graph_data = true

/-- The node-id list of a graph. -/
def nodeIds (graph_data : GraphData) : List String :=
  graph_data.nodes.map (fun n => n.id)

/-- One parsed create-or-edit request (the operations the single-parent claim
quantifies over); `none` payloads model unparseable ones. -/
inductive Op where
  | create (r : Option CreateReq)
  | edit (r : Option EditReq)
deriving DecidableEq

/-- Apply one operation to the shared mutable graph, keeping its new state. -/
def applyOp (graph_data : GraphData) (o : Op) : GraphData :=
  match o with
  | .create r => (create_task_node r graph_data).2
  | .edit r => (edit_task_node r graph_data).2

/-- Apply a sequence of operations in order. -/
def applyOps (graph_data : GraphData) (ops : List Op) : GraphData :=
  ops.foldl applyOp graph_data

/-- A create payload uses a fresh node id for the graph it is applied to. -/
def freshCreate (graph_data : GraphData) : Op → Prop
  | .create (some r) =>
    match r.id with
    | some i => parent_exists i graph_data = false
    | none => True
  | _ => True

/-- Along the run, every create payload's id is fresh at the moment it is
applied (the caller-facing tool layer generates fresh timestamp ids). -/
def FreshCreates (graph_data : GraphData) : List Op → Prop
  | [] => True
  | o :: os => freshCreate graph_data o ∧ FreshCreates (applyOp graph_data o) os

/-- `Reaches g a b`: `b` is `a` itself or a transitive descendant of `a`
along the links of `g`. -/
inductive Reaches (graph_data : GraphData) : String → String → Prop
  | refl (a : String) : Reaches graph_data a a
  | tail {a b c : String} : Reaches graph_data a b →
      Link.mk b c ∈ graph_data.links → Reaches graph_data a c

/-- The initial graph of the C1 counterexample: two nodes `A`, `B` with the
single link `A -> B`; every target occurs at most once and ids are unique. -/
def c1Graph : GraphData :=
  ⟨[⟨"A", "A", some "", some "notStarted"⟩,
    ⟨"B", "B", some "", some "notStarted"⟩],
   [⟨"A", "B"⟩]⟩

/-- A create payload reusing the existing id `B` with resolvable parent `A`. -/
def c1BadOp : Op :=
  .create (some ⟨some "B", some "X", some (some "d"), some (some "A")⟩)

/-- The C2 counterexample graph: nodes `""`, `X`, `C` with links
`"" -> X -> C` (a single-parent tree rooted at the node with id `""`). -/
def c2Graph : GraphData :=
  ⟨[⟨"", "r", some "", some "notStarted"⟩,
    ⟨"X", "X", some "", some "notStarted"⟩,
    ⟨"C", "C", some "", some "notStarted"⟩],
   [⟨"", "X"⟩, ⟨"X", "C"⟩]⟩

theorem targetsAtMostOnceB_iff (g : GraphData) :
    targetsAtMostOnceB g = true ↔ TargetsAtMostOnce g := by
  constructor
  · intro h t
    rcases Nat.eq_zero_or_pos (countIncoming g.links t) with h0 | h0
    · omega
    · have hne : g.links.filter (fun l => l.target == t) ≠ [] := by
        intro hnil
        simp [countIncoming, hnil] at h0
      obtain ⟨l, hl⟩ := List.exists_mem_of_ne_nil _ hne
      have hmem := List.mem_filter.mp hl
      have ht : l.target = t := by simpa using hmem.2
      have := List.all_eq_true.mp h l hmem.1
      rw [← ht]
      simpa using this
  · intro h
    refine List.all_eq_true.mpr (fun l _ => ?_)
    simpa using h l.target

theorem countIncoming_append (ls ms : List Link) (t : String) :
    countIncoming (ls ++ ms) t = countIncoming ls t + countIncoming ms t := by
  simp [countIncoming]

theorem countIncoming_singleton (l : Link) (t : String) :
    countIncoming [l] t = if l.target == t then 1 else 0 := by
  by_cases h : l.target = t <;> simp [countIncoming, h]

theorem countIncoming_filter_self (ls : List Link) (eid : String) :
    countIncoming (ls.filter (fun l => l.target != eid)) eid = 0 := by
  rw [countIncoming, List.filter_filter]
  have : ∀ l ∈ ls, ¬ ((l.target == eid) && (l.target != eid)) = true := by
    intro l _
    by_cases h : l.target = eid <;> simp [h]
  simp only [List.length_eq_zero]
  exact List.filter_eq_nil_iff.mpr this

theorem countIncoming_filter_ne (ls : List Link) (eid t : String) (h : t ≠ eid) :
    countIncoming (ls.filter (fun l => l.target != eid)) t = countIncoming ls t := by
  rw [countIncoming, List.filter_filter, countIncoming]
  congr 1
  apply List.filter_congr
  intro l _
  by_cases hl : l.target = t
  · simp [hl, h]
  · simp [hl]

/-- If every link target is an existing node id and `i` is not one, then `i`
has no incoming link. -/
theorem countIncoming_eq_zero_of_fresh (g : GraphData) (i : String)
    (htg : LinkTargetsExist g) (hfresh : parent_exists i g = false) :
    countIncoming g.links i = 0 := by
  rcases Nat.eq_zero_or_pos (countIncoming g.links i) with h0 | h0
  · exact h0
  · exfalso
    have hne : g.links.filter (fun l => l.target == i) ≠ [] := by
      intro hnil
      simp [countIncoming, hnil] at h0
    obtain ⟨l, hl⟩ := List.exists_mem_of_ne_nil _ hne
    have hmem := List.mem_filter.mp hl
    have ht : l.target = i := by simpa using hmem.2
    have := htg l hmem.1
    rw [ht, hfresh] at this
    exact absurd this (by simp)

/-! ## Sequences of create and edit operations -/

theorem applyOps_append (g : GraphData) (xs ys : List Op) :
    applyOps g (xs ++ ys) = applyOps (applyOps g xs) ys := by
  simp [applyOps, List.foldl_append]

theorem freshCreates_append_left (g : GraphData) (xs ys : List Op)
    (h : FreshCreates g (xs ++ ys)) : FreshCreates g xs := by
  induction xs generalizing g with
  | nil => trivial
  | cons o os ih => exact ⟨h.1, ih _ h.2⟩

/-! ## Shape lemmas for the operations -/

theorem create_valid_eq (r : CreateReq) (g : GraphData) (nid nm : String)
    (d : Option String) (hid : r.id = some nid) (hn : r.name = some nm)
    (hd : r.description = some d) :
    create_task_node (some r) g =
      (some ⟨"create", nm, nid⟩,
       ⟨g.nodes ++ [⟨nid, nm, d, some "notStarted"⟩],
        if truthyStr r.parent_id.join &&
           parent_exists (r.parent_id.join.getD "") g
        then g.links ++ [⟨r.parent_id.join.getD "", nid⟩]
        else g.links⟩) := by
  rcases hpid : r.parent_id with _ | pv
  · simp [create_task_node, hid, hn, hd, hpid, truthyStr, Option.join]
  · rcases pv with _ | p
    · simp [create_task_node, hid, hn, hd, hpid, truthyStr, Option.join]
    · by_cases hp : p = ""
      · simp [create_task_node, hid, hn, hd, hpid, truthyStr, Option.join, hp]
      · by_cases h2 : parent_exists p g
        · simp [create_task_node, hid, hn, hd, hpid, truthyStr, Option.join, hp, h2]
        · simp [create_task_node, hid, hn, hd, hpid, truthyStr, Option.join, hp, h2]

theorem countIncoming_kept_le (ls : List Link) (eid t : String)
    (h : ∀ t, countIncoming ls t ≤ 1) :
    countIncoming (ls.filter (fun l => l.target != eid)) t ≤ 1 := by
  by_cases ht : t = eid
  · subst ht
    rw [countIncoming_filter_self]
    omega
  · rw [countIncoming_filter_ne _ _ _ ht]
    exact h t

theorem countIncoming_kept_append_le (ls : List Link) (eid p t : String)
    (h : ∀ t, countIncoming ls t ≤ 1) :
    countIncoming (ls.filter (fun l => l.target != eid) ++ [⟨p, eid⟩]) t ≤ 1 := by
  rw [countIncoming_append, countIncoming_singleton]
  by_cases ht : t = eid
  · subst ht
    rw [countIncoming_filter_self]
    simp
  · rw [countIncoming_filter_ne _ _ _ ht]
    have h1 := h t
    have h2 : ((Link.mk p eid).target == t) = false := by
      simp [Ne.symm ht]
    rw [h2]
    simpa using h1

/-! ## Preservation of the invariants by create and edit -/

/-- Edit preserves the single-parent property unconditionally: whenever
`parent_id` is present, all incoming links of the edited id are removed
before at most one is appended, and other ids keep their incoming counts. -/
theorem edit_preserves_TAMO (e? : Option EditReq) (g : GraphData)
    (h : TargetsAtMostOnce g) : TargetsAtMostOnce (edit_task_node e? g).2 := by
  match e? with
  | none => exact h
  | some e =>
    match hid : e.id with
    | none => simpa [edit_task_node, hid] using h
    | some eid =>
      match hfind : g.nodes.find? (fun n => n.id == eid) with
      | none => simpa [edit_task_node, hid, hfind] using h
      | some n0 =>
        match hpv : e.parent_id with
        | none =>
          intro t
          simpa [edit_task_node, hid, hfind, hpv] using h t
        | some pv =>
          intro t
          simp only [edit_task_node, hid, hfind, hpv]
          by_cases h1 : truthyStr pv
          · by_cases h2 : parent_exists (pv.getD "")
                ⟨editNodes e eid g.nodes,
                 g.links.filter (fun l => l.target != eid)⟩
            · simp only [h1, h2, if_true]
              exact countIncoming_kept_append_le g.links eid _ t h
            · simp only [h1, h2, if_true, if_false]
              exact countIncoming_kept_le g.links eid t h
          · simp only [h1, if_false]
            exact countIncoming_kept_le g.links eid t h

theorem parent_exists_iff_mem_nodeIds (i : String) (g : GraphData) :
    parent_exists i g = true ↔ i ∈ nodeIds g := by
  simp only [parent_exists, nodeIds, List.any_eq_true, List.mem_map]
  constructor
  · rintro ⟨n, hn, hb⟩
    exact ⟨n, hn, by simpa using beq_iff_eq.mp hb⟩
  · rintro ⟨n, hn, hb⟩
    exact ⟨n, hn, by simp [hb]⟩

theorem updateFirst_map_id (p : TaskNode → Bool) (f : TaskNode → TaskNode)
    (hf : ∀ n, (f n).id = n.id) (ns : List TaskNode) :
    (updateFirst p f ns).map (fun n => n.id) = ns.map (fun n => n.id) := by
  induction ns with
  | nil => rfl
  | cons n ns ih =>
    by_cases h : p n
    · simp [updateFirst, h, hf]
    · simp [updateFirst, h, ih]

theorem parent_exists_eq_of_ids (i : String) (g g' : GraphData)
    (h : nodeIds g = nodeIds g') :
    parent_exists i g = parent_exists i g' := by
  have hany : ∀ ns : List TaskNode,
      (ns.any fun n => n.id == i) = ((ns.map fun n => n.id).any fun x => x == i) := by
    intro ns
    induction ns with
    | nil => rfl
    | cons n ns ih => simp only [List.any_cons, List.map_cons, ih]
  have hg : parent_exists i g = ((nodeIds g).any fun x => x == i) := hany g.nodes
  have hg' : parent_exists i g' = ((nodeIds g').any fun x => x == i) := hany g'.nodes
  rw [hg, hg', h]

theorem parent_exists_of_find {g : GraphData} {eid : String} {n0 : TaskNode}
    (hfind : g.nodes.find? (fun n => n.id == eid) = some n0) :
    parent_exists eid g = true := by
  have h1 := List.find?_some hfind
  have h2 := List.mem_of_find?_eq_some hfind
  simp only [parent_exists, List.any_eq_true]
  exact ⟨n0, h2, h1⟩

/-- Edit never changes the list of node ids. -/
theorem edit_nodeIds (e? : Option EditReq) (g : GraphData) :
    nodeIds (edit_task_node e? g).2 = nodeIds g := by
  match e? with
  | none => rfl
  | some e =>
    match hid : e.id with
    | none => simp [edit_task_node, hid]
    | some eid =>
      match hfind : g.nodes.find? (fun n => n.id == eid) with
      | none => simp [edit_task_node, hid, hfind]
      | some n0 =>
        have hids := updateFirst_map_id (fun n => n.id == eid)
          (fun n => { n with name := editName e n.name,
                             description := editDesc e n.description })
          (fun _ => rfl) g.nodes
        match hpv : e.parent_id with
        | none => simpa [edit_task_node, hid, hfind, hpv, nodeIds] using hids
        | some pv =>
          simp only [edit_task_node, hid, hfind, hpv, nodeIds]
          split <;> (try split) <;> simpa using hids

theorem edit_preserves_LTE (e? : Option EditReq) (g : GraphData)
    (h : LinkTargetsExist g) : LinkTargetsExist (edit_task_node e? g).2 := by
  have hids : nodeIds (edit_task_node e? g).2 = nodeIds g := edit_nodeIds e? g
  have hpe : ∀ i, parent_exists i (edit_task_node e? g).2 = parent_exists i g :=
    fun i => parent_exists_eq_of_ids i _ _ hids
  match e? with
  | none => exact h
  | some e =>
    match hid : e.id with
    | none => simpa [edit_task_node, hid] using h
    | some eid =>
      match hfind : g.nodes.find? (fun n => n.id == eid) with
      | none => simpa [edit_task_node, hid, hfind] using h
      | some n0 =>
        intro l hl
        rw [hpe]
        have hlinks : l ∈ (edit_task_node (some e) g).2.links := hl
        have hparent := parent_exists_of_find hfind
        match hpv : e.parent_id with
        | none =>
          have : l ∈ g.links := by
            simpa [edit_task_node, hid, hfind, hpv] using hlinks
          exact h l this
        | some pv =>
          have : l ∈ g.links.filter (fun l => l.target != eid) ++ [⟨pv.getD "", eid⟩] ∨
                 l ∈ g.links.filter (fun l => l.target != eid) := by
            simp only [edit_task_node, hid, hfind, hpv] at hlinks
            split at hlinks
            · split at hlinks
              · exact Or.inl hlinks
              · exact Or.inr hlinks
            · exact Or.inr hlinks
          rcases this with hcase | hcase
          · rcases List.mem_append.mp hcase with hold | hnew
            · exact h l (List.mem_filter.mp hold).1
            · have : l = ⟨pv.getD "", eid⟩ := by simpa using hnew
              rw [this]
              exact hparent
          · exact h l (List.mem_filter.mp hcase).1

theorem not_mem_nodeIds_of_fresh {g : GraphData} {i : String}
    (h : parent_exists i g = false) : i ∉ nodeIds g := by
  intro hmem
  rw [(parent_exists_iff_mem_nodeIds i g).mpr hmem] at h
  simp at h

theorem parent_exists_mono (i : String) (g : GraphData) (ns : List TaskNode)
    (ls : List Link) (h : parent_exists i g = true) :
    parent_exists i ⟨g.nodes ++ ns, ls⟩ = true := by
  simp only [parent_exists, List.any_append] at *
  simp [h]

/-- Appending one link whose target is a fresh id keeps every incoming count
at one or below. -/
theorem TAMO_append_fresh (g : GraphData) (ns : List TaskNode) (p nid : String)
    (h1 : TargetsAtMostOnce g) (h2 : LinkTargetsExist g)
    (hfresh : parent_exists nid g = false) :
    TargetsAtMostOnce ⟨g.nodes ++ ns, g.links ++ [⟨p, nid⟩]⟩ := by
  intro t
  have hz : countIncoming g.links nid = 0 :=
    countIncoming_eq_zero_of_fresh g nid h2 hfresh
  show countIncoming (g.links ++ [⟨p, nid⟩]) t ≤ 1
  rw [countIncoming_append, countIncoming_singleton]
  by_cases ht : t = nid
  · subst ht
    rw [hz]
    simp
  · have hb : ((Link.mk p nid).target == t) = false := by simp [Ne.symm ht]
    rw [hb]
    simpa using h1 t

/-- Create with a fresh id preserves all three structural invariants. -/
theorem create_preserves_inv (r? : Option CreateReq) (g : GraphData)
    (h1 : TargetsAtMostOnce g) (h2 : LinkTargetsExist g)
    (h3 : (nodeIds g).Nodup) (hf : freshCreate g (.create r?)) :
    TargetsAtMostOnce (create_task_node r? g).2 ∧
      LinkTargetsExist (create_task_node r? g).2 ∧
      (nodeIds (create_task_node r? g).2).Nodup := by
  match r? with
  | none => exact ⟨h1, h2, h3⟩
  | some r =>
    match hid : r.id with
    | none =>
      simp only [create_task_node, hid]
      exact ⟨h1, h2, h3⟩
    | some nid =>
      match hn : r.name with
      | none =>
        simp only [create_task_node, hid, hn]
        exact ⟨h1, h2, h3⟩
      | some nm =>
        match hd : r.description with
        | none =>
          simp only [create_task_node, hid, hn, hd]
          exact ⟨h1, h2, h3⟩
        | some d =>
          have hfresh : parent_exists nid g = false := by
            simpa [freshCreate, hid] using hf
          rw [create_valid_eq r g nid nm d hid hn hd]
          have hnodup : (nodeIds
              (⟨g.nodes ++ [⟨nid, nm, d, some "notStarted"⟩], g.links⟩ :
                GraphData)).Nodup := by
            have : nodeIds (⟨g.nodes ++ [⟨nid, nm, d, some "notStarted"⟩],
                g.links⟩ : GraphData) = nodeIds g ++ [nid] := by
              simp [nodeIds]
            rw [this, List.nodup_append]
            exact ⟨h3, List.nodup_singleton nid, by
              simpa using not_mem_nodeIds_of_fresh hfresh⟩
          by_cases hc : (truthyStr r.parent_id.join &&
              parent_exists (r.parent_id.join.getD "") g) = true
          · rw [if_pos hc]
            refine ⟨TAMO_append_fresh g _ _ nid h1 h2 hfresh, ?_, hnodup⟩
            intro l hl
            rcases List.mem_append.mp hl with hold | hnew
            · exact parent_exists_mono _ g _ _ (h2 l hold)
            · have : l = ⟨r.parent_id.join.getD "", nid⟩ := by simpa using hnew
              rw [this]
              simp [parent_exists, List.any_append]
          · rw [if_neg hc]
            refine ⟨fun t => h1 t, ?_, hnodup⟩
            intro l hl
            exact parent_exists_mono _ g _ _ (h2 l hl)

/-- Edit preserves the node-id list, hence id uniqueness. -/
theorem edit_preserves_nodup (e? : Option EditReq) (g : GraphData)
    (h3 : (nodeIds g).Nodup) : (nodeIds (edit_task_node e? g).2).Nodup := by
  rw [edit_nodeIds]
  exact h3

/-- One create-or-edit step preserves the three structural invariants,
provided a create step uses a fresh id. -/
theorem applyOp_preserves_inv (g : GraphData) (o : Op)
    (h1 : TargetsAtMostOnce g) (h2 : LinkTargetsExist g)
    (h3 : (nodeIds g).Nodup) (hf : freshCreate g o) :
    TargetsAtMostOnce (applyOp g o) ∧ LinkTargetsExist (applyOp g o) ∧
      (nodeIds (applyOp g o)).Nodup := by
  match o with
  | .create r => exact create_preserves_inv r g h1 h2 h3 hf
  | .edit r =>
    exact ⟨edit_preserves_TAMO r g h1, edit_preserves_LTE r g h2,
           edit_preserves_nodup r g h3⟩

theorem applyOps_preserves_inv (ops : List Op) :
    ∀ g : GraphData, TargetsAtMostOnce g → LinkTargetsExist g →
      (nodeIds g).Nodup → FreshCreates g ops →
      TargetsAtMostOnce (applyOps g ops) ∧ LinkTargetsExist (applyOps g ops) ∧
        (nodeIds (applyOps g ops)).Nodup := by
  induction ops with
  | nil => exact fun g h1 h2 h3 _ => ⟨h1, h2, h3⟩
  | cons o os ih =>
    intro g h1 h2 h3 hf
    have hstep := applyOp_preserves_inv g o h1 h2 h3 hf.1
    exact ih (applyOp g o) hstep.1 hstep.2.1 hstep.2.2 hf.2

/-! ## Claim C1 (single-parent invariant) -/

/-- Claim C1, counterexample to the claim as stated.  The claim quantifies
over every sequence of create and edit operations, but
`GraphOperations.create_task_node` never checks that the payload's id is
fresh: starting from the well-formed graph `A -> B`, creating a node whose
payload reuses id `B` with parent `A` appends a second link targeting `B`,
so `B` then has two incoming links. -/
theorem C1_counterexample :
    TargetsAtMostOnce c1Graph ∧ (nodeIds c1Graph).Nodup ∧
      ¬ TargetsAtMostOnce (applyOps c1Graph [c1BadOp]) := by
  refine ⟨(targetsAtMostOnceB_iff _).mp (by decide), by decide, fun h => ?_⟩
  exact absurd (h "B") (by decide)

/-- Claim C1 (amended): for every `GraphData` in which no id has more than
one incoming link, every link target references an existing node id, and
node ids are unique, and for every sequence of create and edit operations
in which each create payload's id is fresh for the graph it is applied to
(as the caller-facing tool layer guarantees by generating fresh ids), no
id ever has more than one incoming link: after every prefix of the
sequence, each link's target appears as target of at most one link. -/
theorem C1_single_parent_of_fresh_creates (g : GraphData) (ops : List Op)
    (h1 : TargetsAtMostOnce g) (h2 : LinkTargetsExist g)
    (h3 : (nodeIds g).Nodup) (hf : FreshCreates g ops) :
    ∀ pre suf : List Op, ops = pre ++ suf →
      TargetsAtMostOnce (applyOps g pre) := by
  intro pre suf hsplit
  subst hsplit
  exact (applyOps_preserves_inv pre g h1 h2 h3
    (freshCreates_append_left g pre suf hf)).1

/-- Claim C1, witness: the amended theorem applied to the one-node graph `A`
and one fresh create under parent `A`. -/
theorem C1_witness :
    TargetsAtMostOnce (applyOps ⟨[⟨"A", "A", some "", some "notStarted"⟩], []⟩
      [.create (some ⟨some "B", some "B", some (some ""), some (some "A")⟩)]) :=
  C1_single_parent_of_fresh_creates
    ⟨[⟨"A", "A", some "", some "notStarted"⟩], []⟩
    [.create (some ⟨some "B", some "B", some (some ""), some (some "A")⟩)]
    (fun t => by simp [countIncoming])
    (fun l hl => by simp at hl)
    (by decide)
    ⟨show parent_exists "B" ⟨[⟨"A", "A", some "", some "notStarted"⟩], []⟩ =
        false by decide, trivial⟩
    [.create (some ⟨some "B", some "B", some (some ""), some (some "A")⟩)] []
    (by simp)

/-! ## Claim C7 (description stored on create) -/

/-- Claim C7 (code bug): the code comment `# Ensure description is not None`
notwithstanding, `node.get("description", "")` never coerces a present-but-
null description (the default only fires when the key is absent, and
validation requires it to be present), so create with payload
`{"id": "a", "name": "x", "description": null}` stores a node whose
description is Python `None`, not `""`. -/
theorem C7_null_description_stored :
    (create_task_node (some ⟨some "a", some "x", some none, none⟩)
        ⟨[], []⟩).2.nodes = [⟨"a", "x", none, some "notStarted"⟩] ∧
    (create_task_node (some ⟨some "a", some "x", some none, none⟩)
        ⟨[], []⟩).1 = some ⟨"create", "x", "a"⟩ := by
  decide

/-! ## Claim C8 (create with optional parent) -/

/-- Claim C8 (amended): a valid create payload (id, name, description
present) always appends the node with status `notStarted` and returns
`{action: create, id, name}`; a link `parent_id -> new_id` is added exactly
when `parent_id` is given with a truthy (non-null, non-empty) value that
resolves to an existing node; a given-but-unresolvable parent, a null or
absent parent, or an empty-string parent leaves the links unchanged while
the node is still created. -/
theorem C8_create_semantics (g : GraphData) (r : CreateReq)
    (nid nm : String) (d : Option String)
    (hid : r.id = some nid) (hn : r.name = some nm)
    (hd : r.description = some d) :
    (create_task_node (some r) g).1 = some ⟨"create", nm, nid⟩ ∧
    (create_task_node (some r) g).2.nodes =
      g.nodes ++ [⟨nid, nm, d, some "notStarted"⟩] ∧
    (∀ p, r.parent_id = some (some p) → p ≠ "" → parent_exists p g = true →
      (create_task_node (some r) g).2.links = g.links ++ [⟨p, nid⟩]) ∧
    (∀ p, r.parent_id = some (some p) → parent_exists p g = false →
      (create_task_node (some r) g).2.links = g.links) ∧
    ((r.parent_id = none ∨ r.parent_id = some none ∨
        r.parent_id = some (some "")) →
      (create_task_node (some r) g).2.links = g.links) := by
  rw [create_valid_eq r g nid nm d hid hn hd]
  refine ⟨rfl, rfl, ?_, ?_, ?_⟩
  · intro p hp hne hex
    simp [hp, Option.join, truthyStr, hne, hex]
  · intro p hp hex
    simp [hp, Option.join, truthyStr, hex]
  · rintro (hp | hp | hp) <;> simp [hp, Option.join, truthyStr]

/-- Claim C8, counterexample to the claim as stated: the empty string is a
given `parent_id` that resolves to an existing node (a node with id `""`),
yet create adds no link, because the code tests Python truthiness
(`if parent_id:`) rather than non-nullness. -/
theorem C8_counterexample :
    parent_exists "" ⟨[⟨"", "r", some "", some "notStarted"⟩], []⟩ = true ∧
    (create_task_node (some ⟨some "n", some "X", some (some "d"),
        some (some "")⟩) ⟨[⟨"", "r", some "", some "notStarted"⟩], []⟩).1 =
      some ⟨"create", "X", "n"⟩ ∧
    (create_task_node (some ⟨some "n", some "X", some (some "d"),
        some (some "")⟩) ⟨[⟨"", "r", some "", some "notStarted"⟩], []⟩).2.links
      = [] := by
  decide

/-- Claim C8, witness: the spec's own example, `create(name="X",
description="d", parent_id="missing")` on a one-node graph creates the node
and drops the link. -/
theorem C8_witness :
    (create_task_node (some ⟨some "X1", some "X", some (some "d"),
        some (some "missing")⟩)
      ⟨[⟨"A", "A", some "", some "notStarted"⟩], []⟩).1 =
      some ⟨"create", "X", "X1"⟩ ∧
    (create_task_node (some ⟨some "X1", some "X", some (some "d"),
        some (some "missing")⟩)
      ⟨[⟨"A", "A", some "", some "notStarted"⟩], []⟩).2.links = [] := by
  have h := C8_create_semantics
    ⟨[⟨"A", "A", some "", some "notStarted"⟩], []⟩
    ⟨some "X1", some "X", some (some "d"), some (some "missing")⟩
    "X1" "X" (some "d") rfl rfl rfl
  exact ⟨h.1, h.2.2.2.1 "missing" rfl (by decide)⟩

/-! ## Claim C9 (validation failures are non-throwing no-ops) -/

/-- Claim C9: every expected validation failure returns no change descriptor
and leaves the graph exactly unchanged: unparseable payloads (embedded as
`none`), payloads missing a required field, ids that do not resolve for
edit, update-status or delete, and invalid (or null) status values for
update-status.  All operations are total Lean functions, so none of these
paths can raise. -/
theorem C9_validation_noop (g : GraphData) :
    (create_task_node none g = (none, g) ∧
     edit_task_node none g = (none, g) ∧
     update_task_status none g = (none, g) ∧
     delete_task_node none g = (none, g)) ∧
    (∀ r : CreateReq, r.id = none ∨ r.name = none ∨ r.description = none →
      create_task_node (some r) g = (none, g)) ∧
    (∀ e : EditReq, e.id = none → edit_task_node (some e) g = (none, g)) ∧
    (∀ u : StatusReq, u.id = none ∨ u.status = none →
      update_task_status (some u) g = (none, g)) ∧
    (∀ d : DeleteReq, d.id = none → delete_task_node (some d) g = (none, g)) ∧
    (∀ (e : EditReq) (eid : String), e.id = some eid →
      g.nodes.find? (fun n => n.id == eid) = none →
      edit_task_node (some e) g = (none, g)) ∧
    (∀ (u : StatusReq) (uid : String), u.id = some uid →
      g.nodes.find? (fun n => n.id == uid) = none →
      update_task_status (some u) g = (none, g)) ∧
    (∀ (d : DeleteReq) (did : String), d.id = some did →
      g.nodes.find? (fun n => n.id == did) = none →
      delete_task_node (some d) g = (none, g)) ∧
    (∀ (u : StatusReq) (s : String), u.status = some (some s) →
      valid_statuses.contains s = false →
      update_task_status (some u) g = (none, g)) ∧
    (∀ u : StatusReq, u.status = some none →
      update_task_status (some u) g = (none, g)) := by
  refine ⟨⟨rfl, rfl, rfl, rfl⟩, ?_, ?_, ?_, ?_, ?_, ?_, ?_, ?_, ?_⟩
  · rintro r (h | h | h) <;>
      rcases hid : r.id with _ | i <;>
      rcases hn : r.name with _ | nm <;>
      simp_all [create_task_node]
  · intro e h
    simp [edit_task_node, h]
  · rintro u (h | h) <;> rcases hid : u.id with _ | i <;>
      simp_all [update_task_status]
  · intro d h
    simp [delete_task_node, h]
  · intro e eid hid hfind
    simp [edit_task_node, hid, hfind]
  · intro u uid hid hfind
    rcases hs : u.status with _ | sv
    · simp [update_task_status, hid, hs]
    · rcases sv with _ | s
      · simp [update_task_status, hid, hs]
      · by_cases hc : valid_statuses.contains s
        · simp [update_task_status, hid, hs, hc, hfind]
        · have hc' : s ∉ valid_statuses := by simpa using hc
          simp [update_task_status, hid, hs, hc']
  · intro d did hid hfind
    simp [delete_task_node, hid, hfind]
  · intro u s hs hc
    have hc' : s ∉ valid_statuses := by simpa using hc
    rcases hid : u.id with _ | i
    · simp [update_task_status, hid]
    · simp [update_task_status, hid, hs, hc']
  · intro u hs
    rcases hid : u.id with _ | i
    · simp [update_task_status, hid]
    · simp [update_task_status, hid, hs]

/-- Claim C9, witness: concrete no-ops on a one-node graph: deleting the
missing id `Z`, editing the missing id `Z`, and updating status with the
invalid value `bogus`. -/
theorem C9_witness :
    delete_task_node (some ⟨some "Z"⟩)
        ⟨[⟨"A", "A", some "", some "notStarted"⟩], []⟩ =
      (none, ⟨[⟨"A", "A", some "", some "notStarted"⟩], []⟩) ∧
    edit_task_node (some ⟨some "Z", none, none, none⟩)
        ⟨[⟨"A", "A", some "", some "notStarted"⟩], []⟩ =
      (none, ⟨[⟨"A", "A", some "", some "notStarted"⟩], []⟩) ∧
    update_task_status (some ⟨some "A", some (some "bogus")⟩)
        ⟨[⟨"A", "A", some "", some "notStarted"⟩], []⟩ =
      (none, ⟨[⟨"A", "A", some "", some "notStarted"⟩], []⟩) := by
  have h := C9_validation_noop ⟨[⟨"A", "A", some "", some "notStarted"⟩], []⟩
  exact ⟨h.2.2.2.2.2.2.2.1 ⟨some "Z"⟩ "Z" rfl (by decide),
         h.2.2.2.2.2.1 ⟨some "Z", none, none, none⟩ "Z" rfl (by decide),
         h.2.2.2.2.2.2.2.2.1 ⟨some "A", some (some "bogus")⟩ "bogus" rfl
           (by decide)⟩

/-! ## Shape lemmas for edit, and claim C6 (edit field semantics) -/

theorem updateFirst_congr (p : TaskNode → Bool) (f f' : TaskNode → TaskNode)
    (h : ∀ n, f n = f' n) (ns : List TaskNode) :
    updateFirst p f ns = updateFirst p f' ns := by
  induction ns with
  | nil => rfl
  | cons n ns ih =>
    by_cases hp : p n
    · simp [updateFirst, hp, h]
    · simp [updateFirst, hp, ih]

theorem edit_found_result (e : EditReq) (g : GraphData) (eid : String)
    (n0 : TaskNode) (hid : e.id = some eid)
    (hfind : g.nodes.find? (fun n => n.id == eid) = some n0) :
    (edit_task_node (some e) g).1 = some ⟨"edit", editName e n0.name, eid⟩ := by
  simp only [edit_task_node, hid, hfind]

theorem edit_found_nodes (e : EditReq) (g : GraphData) (eid : String)
    (n0 : TaskNode) (hid : e.id = some eid)
    (hfind : g.nodes.find? (fun n => n.id == eid) = some n0) :
    (edit_task_node (some e) g).2.nodes = editNodes e eid g.nodes := by
  simp only [edit_task_node, hid, hfind]
  cases e.parent_id with
  | none => rfl
  | some pv =>
    dsimp only
    split
    · split <;> rfl
    · rfl

theorem edit_found_links_of_absent (e : EditReq) (g : GraphData) (eid : String)
    (n0 : TaskNode) (hid : e.id = some eid)
    (hfind : g.nodes.find? (fun n => n.id == eid) = some n0)
    (hpv : e.parent_id = none) :
    (edit_task_node (some e) g).2.links = g.links := by
  simp only [edit_task_node, hid, hfind, hpv]

theorem edit_found_links_of_present (e : EditReq) (g : GraphData)
    (eid : String) (n0 : TaskNode) (pv : Option String)
    (hid : e.id = some eid)
    (hfind : g.nodes.find? (fun n => n.id == eid) = some n0)
    (hpv : e.parent_id = some pv) :
    (edit_task_node (some e) g).2.links =
      (if truthyStr pv && parent_exists (pv.getD "") g
       then g.links.filter (fun l => l.target != eid) ++ [⟨pv.getD "", eid⟩]
       else g.links.filter (fun l => l.target != eid)) := by
  have hids : nodeIds (⟨editNodes e eid g.nodes,
      g.links.filter (fun l => l.target != eid)⟩ : GraphData) = nodeIds g := by
    simpa [nodeIds, editNodes] using
      updateFirst_map_id (fun n => n.id == eid)
        (fun n => { n with name := editName e n.name,
                           description := editDesc e n.description })
        (fun _ => rfl) g.nodes
  have hpe := parent_exists_eq_of_ids (pv.getD "") _ _ hids
  simp only [edit_task_node, hid, hfind, hpv]
  by_cases h1 : truthyStr pv
  · by_cases h2 : parent_exists (pv.getD "") g
    · simp [h1, h2, hpe]
    · simp [h1, h2, hpe]
  · simp [h1]

/-- Claim C6: for an existing node, an edit with an empty or falsy name
leaves every node's name untouched; a present empty-string description
overwrites the matched node's description with `""`; a null or absent
description leaves every description field untouched; whenever `parent_id`
is present the node ends up with at most one incoming link, and any
incoming link it has afterwards comes from a non-null parent value that
resolves to an existing node; an unresolvable new parent leaves the node
parentless. -/
theorem C6_edit_field_semantics (g : GraphData) (e : EditReq) (eid : String)
    (n0 : TaskNode) (hid : e.id = some eid)
    (hfind : g.nodes.find? (fun n => n.id == eid) = some n0) :
    ((e.name = none ∨ e.name = some none ∨ e.name = some (some "")) →
      (edit_task_node (some e) g).2.nodes =
        updateFirst (fun n => n.id == eid)
          (fun n => { n with description := editDesc e n.description })
          g.nodes) ∧
    (e.description = some (some "") →
      (edit_task_node (some e) g).2.nodes =
        updateFirst (fun n => n.id == eid)
          (fun n => { n with name := editName e n.name,
                             description := some "" }) g.nodes) ∧
    ((e.description = none ∨ e.description = some none) →
      (edit_task_node (some e) g).2.nodes =
        updateFirst (fun n => n.id == eid)
          (fun n => { n with name := editName e n.name }) g.nodes) ∧
    (∀ pv, e.parent_id = some pv →
      countIncoming (edit_task_node (some e) g).2.links eid ≤ 1 ∧
      ∀ l ∈ (edit_task_node (some e) g).2.links, l.target = eid →
        ∃ p, pv = some p ∧ parent_exists p g = true ∧ l.source = p) ∧
    (∀ p, e.parent_id = some (some p) → parent_exists p g = false →
      ∀ l ∈ (edit_task_node (some e) g).2.links, l.target ≠ eid) := by
  refine ⟨?_, ?_, ?_, ?_, ?_⟩
  · intro hname
    rw [edit_found_nodes e g eid n0 hid hfind]
    apply updateFirst_congr
    intro n
    have hn : editName e n.name = n.name := by
      rcases hname with h | h | h <;> simp [editName, h]
    simp [hn]
  · intro hdesc
    rw [edit_found_nodes e g eid n0 hid hfind]
    apply updateFirst_congr
    intro n
    simp [editDesc, hdesc]
  · intro hdesc
    rw [edit_found_nodes e g eid n0 hid hfind]
    apply updateFirst_congr
    intro n
    have hd : editDesc e n.description = n.description := by
      rcases hdesc with h | h <;> simp [editDesc, h]
    simp [hd]
  · intro pv hpv
    rw [edit_found_links_of_present e g eid n0 pv hid hfind hpv]
    by_cases hc : (truthyStr pv && parent_exists (pv.getD "") g) = true
    · rw [if_pos hc]
      have h1 := Bool.and_elim_left hc
      have h2 := Bool.and_elim_right hc
      rcases pv with _ | p
      · exact absurd h1 (by simp [truthyStr])
      · constructor
        · rw [countIncoming_append, countIncoming_filter_self,
              countIncoming_singleton]
          simp
        · intro l hl hlt
          rcases List.mem_append.mp hl with hold | hnew
          · have := (List.mem_filter.mp hold).2
            rw [hlt] at this
            simp at this
          · have : l = ⟨p, eid⟩ := by simpa using hnew
            exact ⟨p, rfl, by simpa using h2, by rw [this]⟩
    · rw [if_neg hc]
      constructor
      · rw [countIncoming_filter_self]
        omega
      · intro l hl hlt
        have := (List.mem_filter.mp hl).2
        rw [hlt] at this
        simp at this
  · intro p hpv hex l hl hlt
    rw [edit_found_links_of_present e g eid n0 (some p) hid hfind hpv] at hl
    have hc : (truthyStr (some p) && parent_exists ((some p).getD "") g)
        = false := by
      simp [hex]
    rw [hc] at hl
    simp [hlt] at hl

/-- Claim C6, witness: on a one-node graph with stored description `"old"`,
an edit with a null description and new name `N` leaves the description
untouched, and an edit pointing `parent_id` at a missing node leaves the
node parentless. -/
theorem C6_witness :
    (edit_task_node (some ⟨some "A", some (some "N"), some none, none⟩)
        ⟨[⟨"A", "A", some "old", some "notStarted"⟩], []⟩).2.nodes =
      updateFirst (fun n => n.id == "A")
        (fun n => { n with
          name := editName ⟨some "A", some (some "N"), some none, none⟩ n.name })
        [⟨"A", "A", some "old", some "notStarted"⟩] ∧
    (∀ l ∈ (edit_task_node (some ⟨some "A", none, none,
        some (some "missing")⟩)
        ⟨[⟨"A", "A", some "old", some "notStarted"⟩],
         [⟨"A", "A"⟩]⟩).2.links, l.target ≠ "A") := by
  constructor
  · exact (C6_edit_field_semantics
      ⟨[⟨"A", "A", some "old", some "notStarted"⟩], []⟩
      ⟨some "A", some (some "N"), some none, none⟩ "A"
      ⟨"A", "A", some "old", some "notStarted"⟩ rfl (by decide)).2.2.1
      (Or.inr rfl)
  · exact (C6_edit_field_semantics
      ⟨[⟨"A", "A", some "old", some "notStarted"⟩], [⟨"A", "A"⟩]⟩
      ⟨some "A", none, none, some (some "missing")⟩ "A"
      ⟨"A", "A", some "old", some "notStarted"⟩ rfl (by decide)).2.2.2.2
      "missing" rfl (by decide)

/-! ## Claim C2 (delete of a non-root node reparents its children) -/

/-- Claim C2 (amended): for every graph satisfying the single-parent
property, deleting an existing node `X` whose (first) incoming link has a
non-empty source `P` removes every link touching `X`, appends a link
`P -> C` for every former child `C` of `X` (in order), removes `X` from the
node list, and returns `{action: delete, id: X, name, deleted_nodes: [X],
reconnected_children: number of former children, cascade_deleted: 0}`. -/
theorem C2_delete_reparent (g : GraphData) (X P : String) (n0 : TaskNode)
    (hforest : TargetsAtMostOnce g)
    (hfind : g.nodes.find? (fun n => n.id == X) = some n0)
    (hparent : firstParent g X = some P) (hP : P ≠ "") :
    delete_task_node (some ⟨some X⟩) g =
      (some ⟨"delete", n0.name, X, [X], (childrenOf g X).length, 0⟩,
       ⟨g.nodes.filter (fun n => n.id != X),
        g.links.filter (fun l => l.source != X && l.target != X) ++
          (childrenOf g X).map (fun c => ⟨P, c⟩)⟩) := by
  have ht : truthyStr (some P) = true := by simp [truthyStr, hP]
  simp only [delete_task_node, hfind, hparent, ht, Option.getD_some, if_true]

/-- Claim C2, counterexample to the claim as stated: in `c2Graph` the node
`X` has a parent (the existing node with id `""` and the incoming link
`"" -> X`), so the claim predicts delete(X) reparents `C` under `""` with
`deleted_nodes = [X]` and `reconnected_children = 1`; but the code tests
Python truthiness of the parent id, treats `X` as a root, and
cascade-deletes `X` and `C` with `reconnected_children = 0`. -/
theorem C2_counterexample :
    TargetsAtMostOnce c2Graph ∧
    firstParent c2Graph "X" = some "" ∧
    (delete_task_node (some ⟨some "X"⟩) c2Graph).1 =
      some ⟨"delete", "X", "X", ["X", "C"], 0, 2⟩ ∧
    (delete_task_node (some ⟨some "X"⟩) c2Graph).2.nodes.map
      (fun n => n.id) = [""] ∧
    ¬ (delete_task_node (some ⟨some "X"⟩) c2Graph).1 =
        some ⟨"delete", "X", "X", ["X"], 1, 0⟩ := by
  exact ⟨(targetsAtMostOnceB_iff _).mp (by decide), by decide, by decide,
         by decide, by decide⟩

/-- Claim C2, witness: the spec's own example, root `A -> B`, `B -> C`;
deleting `B` yields `A -> C` with `B` removed and one reconnected child. -/
theorem C2_witness :
    delete_task_node (some ⟨some "B"⟩)
        ⟨[⟨"A", "A", some "", some "notStarted"⟩,
          ⟨"B", "B", some "", some "notStarted"⟩,
          ⟨"C", "C", some "", some "notStarted"⟩],
         [⟨"A", "B"⟩, ⟨"B", "C"⟩]⟩ =
      (some ⟨"delete", "B", "B", ["B"], 1, 0⟩,
       ⟨[⟨"A", "A", some "", some "notStarted"⟩,
         ⟨"C", "C", some "", some "notStarted"⟩],
        [⟨"A", "C"⟩]⟩) := by
  have h := C2_delete_reparent
    ⟨[⟨"A", "A", some "", some "notStarted"⟩,
      ⟨"B", "B", some "", some "notStarted"⟩,
      ⟨"C", "C", some "", some "notStarted"⟩],
     [⟨"A", "B"⟩, ⟨"B", "C"⟩]⟩
    "B" "A" ⟨"B", "B", some "", some "notStarted"⟩
    ((targetsAtMostOnceB_iff _).mp (by decide)) (by decide) (by decide)
    (by decide)
  rw [h]
  decide

/-! ## Claim C10 (edit does not prevent self-parenting or cycles) -/

theorem updateFirst_eq_self (p : TaskNode → Bool) (f : TaskNode → TaskNode)
    (h : ∀ n, f n = n) (ns : List TaskNode) : updateFirst p f ns = ns := by
  induction ns with
  | nil => rfl
  | cons n ns ih =>
    by_cases hp : p n
    · simp [updateFirst, hp, h]
    · simp [updateFirst, hp, ih]

/-- Claim C10, counterexample to the claim as stated: the claim asserts
that for every graph containing a node with id `X`, the edit
`{id: X, parent_id: X}` succeeds and appends the link `X -> X`.  For the
node with id `""` the edit does succeed (the parent-existence check is
never reached), but the Python truthiness test `if new_parent_id:` is
falsy for `""`, so no self-link is appended: the links stay empty. -/
theorem C10_counterexample :
    (edit_task_node (some ⟨some "", none, none, some (some "")⟩)
        ⟨[⟨"", "r", some "", some "notStarted"⟩], []⟩).1 =
      some ⟨"edit", "r", ""⟩ ∧
    (edit_task_node (some ⟨some "", none, none, some (some "")⟩)
        ⟨[⟨"", "r", some "", some "notStarted"⟩], []⟩).2.links = [] := by
  decide

/-- Claim C10 (amended): the parent-existence check of edit passes for the
node being edited itself, so `edit(id: X, parent_id: X)` on any graph
containing `X` succeeds and, provided `X` is non-empty (a falsy id fails
the Python truthiness test `if new_parent_id:` and appends nothing),
appends the self-link `X -> X`; edit preserves the
at-most-one-incoming-link property unconditionally, but not acyclicity:
reparenting `A` under its child `B` turns the acyclic link structure
`A -> B` into a cyclic one. -/
theorem C10_edit_allows_cycles :
    (∀ (g : GraphData) (X : String) (n0 : TaskNode),
      g.nodes.find? (fun n => n.id == X) = some n0 → X ≠ "" →
      (edit_task_node (some ⟨some X, none, none, some (some X)⟩) g).1 =
          some ⟨"edit", n0.name, X⟩ ∧
      (edit_task_node (some ⟨some X, none, none, some (some X)⟩) g).2.nodes
          = g.nodes ∧
      (edit_task_node (some ⟨some X, none, none, some (some X)⟩) g).2.links
          = g.links.filter (fun l => l.target != X) ++ [⟨X, X⟩]) ∧
    (∀ (e? : Option EditReq) (g : GraphData), TargetsAtMostOnce g →
      TargetsAtMostOnce (edit_task_node e? g).2) ∧
    (cyclicLinks ⟨[⟨"A", "A", some "", some "notStarted"⟩,
                   ⟨"B", "B", some "", some "notStarted"⟩],
                  [⟨"A", "B"⟩]⟩ = false ∧
     cyclicLinks (edit_task_node
        (some ⟨some "A", none, none, some (some "B")⟩)
        ⟨[⟨"A", "A", some "", some "notStarted"⟩,
          ⟨"B", "B", some "", some "notStarted"⟩],
         [⟨"A", "B"⟩]⟩).2 = true) := by
  refine ⟨?_, edit_preserves_TAMO, by decide⟩
  intro g X n0 hfind hX
  refine ⟨edit_found_result _ g X n0 rfl hfind, ?_, ?_⟩
  · rw [edit_found_nodes _ g X n0 rfl hfind]
    exact updateFirst_eq_self _ _ (fun n => rfl) g.nodes
  · rw [edit_found_links_of_present _ g X n0 (some X) rfl hfind rfl]
    simp [truthyStr, hX, parent_exists_of_find hfind]

/-- Claim C10, witness: editing the single node `A` to be its own parent
appends the self-link `A -> A`, and the single-parent property still holds
afterwards. -/
theorem C10_witness :
    (edit_task_node (some ⟨some "A", none, none, some (some "A")⟩)
        ⟨[⟨"A", "A", some "", some "notStarted"⟩], []⟩).2.links =
      [⟨"A", "A"⟩] ∧
    TargetsAtMostOnce (edit_task_node
      (some ⟨some "A", none, none, some (some "A")⟩)
      ⟨[⟨"A", "A", some "", some "notStarted"⟩], []⟩).2 := by
  constructor
  · have h := C10_edit_allows_cycles.1
      ⟨[⟨"A", "A", some "", some "notStarted"⟩], []⟩ "A"
      ⟨"A", "A", some "", some "notStarted"⟩ (by decide) (by decide)
    simpa using h.2.2
  · exact C10_edit_allows_cycles.2.1 _ _ (fun t => by simp [countIncoming])

/-! ## Reachability and correctness of `find_all_descendants` -/

theorem mem_childrenOf {g : GraphData} {b c : String} :
    c ∈ childrenOf g b ↔ Link.mk b c ∈ g.links := by
  simp only [childrenOf, List.mem_map, List.mem_filter]
  constructor
  · rintro ⟨l, ⟨hl, hsrc⟩, htgt⟩
    have h1 : l.source = b := by simpa using hsrc
    cases l
    simp only at h1 htgt
    rw [← h1, ← htgt]
    exact hl
  · intro h
    exact ⟨⟨b, c⟩, ⟨h, by simp⟩, rfl⟩

theorem Reaches_head {g : GraphData} {a b x : String}
    (hab : Link.mk a b ∈ g.links) (hbx : Reaches g b x) : Reaches g a x := by
  induction hbx with
  | refl => exact Reaches.tail (Reaches.refl a) hab
  | tail _ hlink ih => exact Reaches.tail ih hlink

/-- Unfolding of the `for` loop inside `fadAux` as `fadList`. -/
theorem fadAux_succ (g : GraphData) (fuel : Nat) (nid : String)
    (vis : List String) :
    fadAux g (fuel + 1) nid vis =
      if vis.contains nid then ([], vis)
      else
        (nid :: (fadList g fuel (childrenOf g nid) (nid :: vis)).1,
         (fadList g fuel (childrenOf g nid) (nid :: vis)).2) := by
  have hfold : ∀ (cs : List String) (p vis0 : List String),
      cs.foldl (fun acc c =>
          let r := fadAux g fuel c acc.2
          (acc.1 ++ r.1, r.2)) (p, vis0) =
        (p ++ (fadList g fuel cs vis0).1, (fadList g fuel cs vis0).2) := by
    intro cs
    induction cs with
    | nil => intro p vis0; simp [fadList]
    | cons c cs ih =>
      intro p vis0
      simp only [List.foldl_cons, fadList]
      rw [ih]
      simp [List.append_assoc]
  by_cases hc : nid ∈ vis
  · have hc' : vis.contains nid = true := by simpa using hc
    simp [fadAux, hc, hc']
  · have hc' : vis.contains nid = false := by simpa using hc
    simp only [fadAux, hc', Bool.false_eq_true, if_false]
    rw [hfold]
    simp [hc]

/-- Evolution of the visited list: the final visited list holds exactly the
fresh output and the initial visited entries. -/
theorem fad_visited (g : GraphData) :
    ∀ fuel : Nat,
      (∀ nid vis x, x ∈ (fadAux g fuel nid vis).2 ↔
        (x ∈ (fadAux g fuel nid vis).1 ∨ x ∈ vis)) ∧
      (∀ cs vis x, x ∈ (fadList g fuel cs vis).2 ↔
        (x ∈ (fadList g fuel cs vis).1 ∨ x ∈ vis)) := by
  intro fuel
  induction fuel with
  | zero =>
    refine ⟨fun nid vis x => by simp [fadAux], ?_⟩
    intro cs
    induction cs with
    | nil => intro vis x; simp [fadList]
    | cons c cs ih =>
      intro vis x
      simp only [fadList, fadAux]
      simpa using ih vis x
  | succ f ih =>
    have hA : ∀ nid vis x, x ∈ (fadAux g (f + 1) nid vis).2 ↔
        (x ∈ (fadAux g (f + 1) nid vis).1 ∨ x ∈ vis) := by
      intro nid vis x
      rw [fadAux_succ]
      by_cases hc : nid ∈ vis
      · have hc' : vis.contains nid = true := by simpa using hc
        simp [hc, hc']
      · have hc' : vis.contains nid = false := by simpa using hc
        simp only [hc', Bool.false_eq_true, if_false]
        rw [ih.2 (childrenOf g nid) (nid :: vis) x]
        simp only [List.mem_cons]
        constructor
        · rintro (h | h | h)
          · exact Or.inl (Or.inr h)
          · exact Or.inl (Or.inl h)
          · exact Or.inr h
        · rintro ((h | h) | h)
          · exact Or.inr (Or.inl h)
          · exact Or.inl h
          · exact Or.inr (Or.inr h)
    refine ⟨hA, ?_⟩
    intro cs
    induction cs with
    | nil => intro vis x; simp [fadList]
    | cons c cs ih2 =>
      intro vis x
      simp only [fadList]
      rw [ih2 (fadAux g (f + 1) c vis).2 x, hA c vis x]
      simp only [List.mem_append]
      tauto

/-- Everything the DFS outputs is reachable from its root. -/
theorem fad_sound (g : GraphData) :
    ∀ fuel : Nat,
      (∀ nid vis x, x ∈ (fadAux g fuel nid vis).1 → Reaches g nid x) ∧
      (∀ cs vis x, x ∈ (fadList g fuel cs vis).1 →
        ∃ c ∈ cs, Reaches g c x) := by
  intro fuel
  induction fuel with
  | zero =>
    refine ⟨fun nid vis x h => by simp [fadAux] at h, ?_⟩
    intro cs
    induction cs with
    | nil => intro vis x h; simp [fadList] at h
    | cons c cs ih =>
      intro vis x h
      simp only [fadList, fadAux] at h
      simp only [List.nil_append] at h
      obtain ⟨c', hc', hr⟩ := ih vis x h
      exact ⟨c', List.mem_cons_of_mem c hc', hr⟩
  | succ f ih =>
    have hA : ∀ nid vis x, x ∈ (fadAux g (f + 1) nid vis).1 →
        Reaches g nid x := by
      intro nid vis x hx
      rw [fadAux_succ] at hx
      by_cases hc : nid ∈ vis
      · have hc' : vis.contains nid = true := by simpa using hc
        simp [hc, hc'] at hx
      · have hc' : vis.contains nid = false := by simpa using hc
        simp only [hc', Bool.false_eq_true, if_false, List.mem_cons] at hx
        rcases hx with hx | hx
        · rw [hx]; exact Reaches.refl nid
        · obtain ⟨c, hcm, hr⟩ := ih.2 (childrenOf g nid) (nid :: vis) x hx
          exact Reaches_head (mem_childrenOf.mp hcm) hr
    refine ⟨hA, ?_⟩
    intro cs
    induction cs with
    | nil => intro vis x h; simp [fadList] at h
    | cons c cs ih2 =>
      intro vis x h
      simp only [fadList, List.mem_append] at h
      rcases h with h | h
      · exact ⟨c, List.mem_cons_self c cs, hA c vis x h⟩
      · obtain ⟨c', hc', hr⟩ := ih2 (fadAux g (f + 1) c vis).2 x h
        exact ⟨c', List.mem_cons_of_mem c hc', hr⟩

theorem fadAux_vis_mono (g : GraphData) (fuel : Nat) (nid : String)
    (vis : List String) (x : String) (h : x ∈ vis) :
    x ∈ (fadAux g fuel nid vis).2 :=
  ((fad_visited g fuel).1 nid vis x).mpr (Or.inr h)

theorem fadList_vis_mono (g : GraphData) (fuel : Nat) (cs : List String)
    (vis : List String) (x : String) (h : x ∈ vis) :
    x ∈ (fadList g fuel cs vis).2 :=
  ((fad_visited g fuel).2 cs vis x).mpr (Or.inr h)

theorem card_sdiff_le_of_sub (U : Finset String) (v1 v2 : List String)
    (h : ∀ x ∈ v1, x ∈ v2) :
    (U \ v2.toFinset).card ≤ (U \ v1.toFinset).card := by
  apply Finset.card_le_card
  apply Finset.sdiff_subset_sdiff (le_refl U)
  intro x hx
  rw [List.mem_toFinset] at hx ⊢
  exact h x hx

theorem card_sdiff_cons_lt (U : Finset String) (vis : List String)
    (nid : String) (hU : nid ∈ U) (hv : nid ∉ vis) :
    (U \ (nid :: vis).toFinset).card < (U \ vis.toFinset).card := by
  have hsub : U \ (nid :: vis).toFinset ⊆ U \ vis.toFinset := by
    rw [List.toFinset_cons]
    exact Finset.sdiff_subset_sdiff (le_refl U) (Finset.subset_insert nid _)
  apply Finset.card_lt_card
  rw [Finset.ssubset_iff_of_subset hsub]
  refine ⟨nid, ?_, ?_⟩
  · rw [Finset.mem_sdiff]
    exact ⟨hU, by simpa using hv⟩
  · rw [List.toFinset_cons]
    simp

/-- With enough fuel the DFS never cuts off: its root ends up visited and
the final visited list is closed under taking children of output nodes. -/
theorem fad_closed (g : GraphData) (U : Finset String)
    (hU : ∀ l ∈ g.links, l.target ∈ U) :
    ∀ fuel : Nat,
      (∀ nid vis, nid ∈ U → (U \ vis.toFinset).card < fuel →
        nid ∈ (fadAux g fuel nid vis).2 ∧
        ∀ v ∈ (fadAux g fuel nid vis).1, ∀ c ∈ childrenOf g v,
          c ∈ (fadAux g fuel nid vis).2) ∧
      (∀ cs vis, (∀ c ∈ cs, c ∈ U) → (U \ vis.toFinset).card < fuel →
        (∀ c ∈ cs, c ∈ (fadList g fuel cs vis).2) ∧
        ∀ v ∈ (fadList g fuel cs vis).1, ∀ c ∈ childrenOf g v,
          c ∈ (fadList g fuel cs vis).2) := by
  have childU : ∀ v : String, ∀ c ∈ childrenOf g v, c ∈ U := by
    intro v c hc
    exact hU _ (mem_childrenOf.mp hc)
  intro fuel
  induction fuel with
  | zero =>
    constructor
    · intro nid vis _ hcard
      exact absurd hcard (Nat.not_lt_zero _)
    · intro cs vis _ hcard
      exact absurd hcard (Nat.not_lt_zero _)
  | succ f ih =>
    have hA : ∀ nid vis, nid ∈ U → (U \ vis.toFinset).card < f + 1 →
        nid ∈ (fadAux g (f + 1) nid vis).2 ∧
        ∀ v ∈ (fadAux g (f + 1) nid vis).1, ∀ c ∈ childrenOf g v,
          c ∈ (fadAux g (f + 1) nid vis).2 := by
      intro nid vis hnU hcard
      by_cases hc : nid ∈ vis
      · have hc' : vis.contains nid = true := by simpa using hc
        rw [fadAux_succ]
        simp [hc, hc']
      · have hc' : vis.contains nid = false := by simpa using hc
        have hcard' : (U \ (nid :: vis).toFinset).card < f :=
          Nat.lt_of_lt_of_le (card_sdiff_cons_lt U vis nid hnU hc)
            (Nat.le_of_lt_succ hcard)
        have ihf := ih.2 (childrenOf g nid) (nid :: vis)
          (fun c hc2 => childU nid c hc2) hcard'
        rw [fadAux_succ]
        simp only [hc', Bool.false_eq_true, if_false]
        constructor
        · exact fadList_vis_mono g f _ _ nid (List.mem_cons_self nid vis)
        · intro v hv c hc2
          rcases List.mem_cons.mp hv with hv | hv
          · subst hv
            exact ihf.1 c hc2
          · exact ihf.2 v hv c hc2
    refine ⟨hA, ?_⟩
    intro cs
    induction cs with
    | nil =>
      intro vis _ _
      constructor
      · intro c hc
        simp at hc
      · intro v hv
        simp [fadList] at hv
    | cons c cs ih2 =>
      intro vis hcsU hcard
      have h1 := hA c vis (hcsU c (List.mem_cons_self c cs)) hcard
      have hmono1 : ∀ x ∈ vis, x ∈ (fadAux g (f + 1) c vis).2 :=
        fun x hx => fadAux_vis_mono g (f + 1) c vis x hx
      have hcard2 : (U \ (fadAux g (f + 1) c vis).2.toFinset).card < f + 1 :=
        Nat.lt_of_le_of_lt (card_sdiff_le_of_sub U vis _ hmono1) hcard
      have h2 := ih2 (fadAux g (f + 1) c vis).2
        (fun c' hc' => hcsU c' (List.mem_cons_of_mem c hc')) hcard2
      have hmono2 : ∀ x ∈ (fadAux g (f + 1) c vis).2,
          x ∈ (fadList g (f + 1) cs (fadAux g (f + 1) c vis).2).2 :=
        fun x hx => fadList_vis_mono g (f + 1) cs _ x hx
      constructor
      · intro c' hc'
        rcases List.mem_cons.mp hc' with h | h
        · subst h
          exact hmono2 c' h1.1
        · exact h2.1 c' h
      · intro v hv c' hc'
        simp only [fadList, List.mem_append] at hv
        rcases hv with hv | hv
        · exact hmono2 c' (h1.2 v hv c' hc')
        · exact h2.2 v hv c' hc'

/-- `find_all_descendants` returns exactly the ids reachable from its root
(on every graph, cyclic ones included: the visited set makes the collection
cycle-safe). -/
theorem find_all_descendants_iff (g : GraphData) (X x : String) :
    x ∈ find_all_descendants g X ↔ Reaches g X x := by
  classical
  have hU : ∀ l ∈ g.links, l.target ∈
      insert X (g.links.map (fun l => l.target)).toFinset := by
    intro l hl
    exact Finset.mem_insert_of_mem
      (List.mem_toFinset.mpr (List.mem_map_of_mem _ hl))
  have hcard : ((insert X (g.links.map (fun l => l.target)).toFinset) \
      ([] : List String).toFinset).card < g.links.length + 2 := by
    have h1 : (insert X (g.links.map (fun l => l.target)).toFinset).card ≤
        (g.links.map (fun l => l.target)).toFinset.card + 1 :=
      Finset.card_insert_le _ _
    have h2 : (g.links.map (fun l => l.target)).toFinset.card ≤
        g.links.length := by
      calc (g.links.map (fun l => l.target)).toFinset.card
          ≤ (g.links.map (fun l => l.target)).length :=
            (g.links.map (fun l => l.target)).toFinset_card_le
        _ = g.links.length := List.length_map _ _
    simp only [List.toFinset_nil, Finset.sdiff_empty]
    omega
  have hcl := (fad_closed g _ hU (g.links.length + 2)).1 X []
    (Finset.mem_insert_self _ _) hcard
  have hvo : ∀ y, y ∈ (fadAux g (g.links.length + 2) X []).2 ↔
      y ∈ (fadAux g (g.links.length + 2) X []).1 := by
    intro y
    rw [(fad_visited g (g.links.length + 2)).1 X [] y]
    simp
  constructor
  · intro h
    exact (fad_sound g (g.links.length + 2)).1 X [] x h
  · intro hr
    have : x ∈ (fadAux g (g.links.length + 2) X []).1 := by
      induction hr with
      | refl => exact (hvo X).mp hcl.1
      | tail _ hlink ih =>
        exact (hvo _).mp (hcl.2 _ ih _ (mem_childrenOf.mpr hlink))
    exact this

/-! ## Claim C3 (delete of a root node cascades) -/

/-- Claim C3: for an existing node `X` with no incoming link, delete takes
the cascade branch: the descriptor's `deleted_nodes` is exactly the list of
ids reachable from `X` (collected cycle-safely), `cascade_deleted` is its
length, `reconnected_children` is `0`, and the new graph keeps exactly the
nodes whose id is unreachable from `X` and the links touching no reachable
id, in their original order. -/
theorem C3_delete_cascade (g : GraphData) (X : String) (n0 : TaskNode)
    (hfind : g.nodes.find? (fun n => n.id == X) = some n0)
    (hroot : ∀ l ∈ g.links, l.target ≠ X) :
    (∀ x, x ∈ find_all_descendants g X ↔ Reaches g X x) ∧
    delete_task_node (some ⟨some X⟩) g =
      (some ⟨"delete", n0.name, X, find_all_descendants g X, 0,
             (find_all_descendants g X).length⟩,
       ⟨g.nodes.filter
          (fun n => !(find_all_descendants g X).contains n.id),
        g.links.filter
          (fun l => !(find_all_descendants g X).contains l.source &&
                    !(find_all_descendants g X).contains l.target)⟩) ∧
    (∀ n, n ∈ (delete_task_node (some ⟨some X⟩) g).2.nodes ↔
      (n ∈ g.nodes ∧ ¬ Reaches g X n.id)) ∧
    (∀ l, l ∈ (delete_task_node (some ⟨some X⟩) g).2.links ↔
      (l ∈ g.links ∧ ¬ Reaches g X l.source ∧ ¬ Reaches g X l.target)) := by
  have hfp : firstParent g X = none := by
    have hnone : g.links.find? (fun l => l.target == X) = none :=
      List.find?_eq_none.mpr (fun l hl => by simp [hroot l hl])
    simp [firstParent, hnone]
  have hshape : delete_task_node (some ⟨some X⟩) g =
      (some ⟨"delete", n0.name, X, find_all_descendants g X, 0,
             (find_all_descendants g X).length⟩,
       ⟨g.nodes.filter
          (fun n => !(find_all_descendants g X).contains n.id),
        g.links.filter
          (fun l => !(find_all_descendants g X).contains l.source &&
                    !(find_all_descendants g X).contains l.target)⟩) := by
    simp only [delete_task_node, hfind, hfp, truthyStr, Bool.false_eq_true,
      if_false]
  have hcont : ∀ y, (find_all_descendants g X).contains y = true ↔
      Reaches g X y := by
    intro y
    constructor
    · intro h
      exact (find_all_descendants_iff g X y).mp (by simpa using h)
    · intro h
      simpa using (find_all_descendants_iff g X y).mpr h
  have hnot : ∀ y, ((!(find_all_descendants g X).contains y) = true) ↔
      ¬ Reaches g X y := by
    intro y
    rw [Bool.not_eq_true']
    constructor
    · intro h hr
      rw [(hcont y).mpr hr] at h
      simp at h
    · intro h
      rcases hb : (find_all_descendants g X).contains y with _ | _
      · rfl
      · exact absurd ((hcont y).mp hb) h
  refine ⟨fun x => find_all_descendants_iff g X x, hshape, ?_, ?_⟩
  · intro n
    rw [hshape]
    simp only [List.mem_filter]
    rw [hnot n.id]
  · intro l
    rw [hshape]
    simp only [List.mem_filter, Bool.and_eq_true]
    rw [hnot l.source, hnot l.target]

/-- Claim C3, witness: the spec's own example, root `A -> B`, `A -> C`;
deleting `A` removes `A`, `B`, `C` and all links, with
`cascade_deleted = 3`; the membership characterization instantiated at the
same graph. -/
theorem C3_witness :
    delete_task_node (some ⟨some "A"⟩)
        ⟨[⟨"A", "A", some "", some "notStarted"⟩,
          ⟨"B", "B", some "", some "notStarted"⟩,
          ⟨"C", "C", some "", some "notStarted"⟩],
         [⟨"A", "B"⟩, ⟨"A", "C"⟩]⟩ =
      (some ⟨"delete", "A", "A", ["A", "B", "C"], 0, 3⟩, ⟨[], []⟩) ∧
    (∀ n, n ∈ (delete_task_node (some ⟨some "A"⟩)
        ⟨[⟨"A", "A", some "", some "notStarted"⟩,
          ⟨"B", "B", some "", some "notStarted"⟩,
          ⟨"C", "C", some "", some "notStarted"⟩],
         [⟨"A", "B"⟩, ⟨"A", "C"⟩]⟩).2.nodes ↔
      (n ∈ [⟨"A", "A", some "", some "notStarted"⟩,
            ⟨"B", "B", some "", some "notStarted"⟩,
            ⟨"C", "C", some "", some "notStarted"⟩] ∧
       ¬ Reaches ⟨[⟨"A", "A", some "", some "notStarted"⟩,
                   ⟨"B", "B", some "", some "notStarted"⟩,
                   ⟨"C", "C", some "", some "notStarted"⟩],
                  [⟨"A", "B"⟩, ⟨"A", "C"⟩]⟩ "A" n.id)) := by
  constructor
  · decide
  · exact (C3_delete_cascade
      ⟨[⟨"A", "A", some "", some "notStarted"⟩,
        ⟨"B", "B", some "", some "notStarted"⟩,
        ⟨"C", "C", some "", some "notStarted"⟩],
       [⟨"A", "B"⟩, ⟨"A", "C"⟩]⟩ "A"
      ⟨"A", "A", some "", some "notStarted"⟩ (by decide)
      (by decide)).2.2.1

end TaskGraph
